import Mathlib

/-
Verification of the silence-split pipeline (src/silence_split.py).

The pipeline is embedded shallowly:
* file names are lists of characters (`Name`), with the Python string
  operations the script uses (`str.split`, `int(...)`, `re.search`,
  `endswith`, `startswith`, `os.path.splitext`) modelled by structurally
  recursive functions on `Name`;
* times and durations (Python floats holding seconds) are rationals;
* the on-disk output directory is an association list `FS` from names to
  file contents, and every invocation of the external media engine
  (ffmpeg / ffprobe subprocesses) is recorded as a `Call`;
* fallible Python code (NameError, ValueError, IndexError, json errors)
  returns `Res`.
-/

namespace SilenceSplit

/-! ## Names and the Python string operations used by the script -/

/-- A file name, as the list of its characters. -/
abbrev Name := List Char

/-- Models Python `s.split(sep)` for a one-character separator: splits at every
occurrence of `sep`, keeping empty fields. -/
def splitOnChar (sep : Char) : Name → List Name
  | [] => [[]]
  | c :: rest =>
    match splitOnChar sep rest with
    | [] => [[c]]
    | g :: gs => if c = sep then [] :: g :: gs else (c :: g) :: gs

/-- Numeric value of a decimal digit character. -/
def digitVal (c : Char) : ℕ := c.toNat - ('0').toNat

/-- Value of a list of decimal digit characters, most significant first. -/
def digitsVal (cs : Name) : ℕ := cs.foldl (fun a c => 10 * a + digitVal c) 0

/-- Models Python `int(s)`: an optional sign followed by decimal digits; any
other shape raises `ValueError`, modelled as `none`. -/
def parseInt (cs : Name) : Option ℤ :=
  match cs with
  | '-' :: rest =>
    if !rest.isEmpty && rest.all Char.isDigit then some (-(digitsVal rest : ℤ)) else none
  | '+' :: rest =>
    if !rest.isEmpty && rest.all Char.isDigit then some ((digitsVal rest : ℤ)) else none
  | _ =>
    if !cs.isEmpty && cs.all Char.isDigit then some ((digitsVal cs : ℤ)) else none

/-- The decimal digit characters. -/
def digitChar : ℕ → Char
  | 0 => '0' | 1 => '1' | 2 => '2' | 3 => '3' | 4 => '4'
  | 5 => '5' | 6 => '6' | 7 => '7' | 8 => '8' | _ => '9'

/-- Decimal rendering of a natural number below the fuel bound. -/
def natToCharsAux : ℕ → ℕ → Name
  | 0, _ => []
  | fuel + 1, n => if n < 10 then [digitChar n] else natToCharsAux fuel (n / 10) ++ [digitChar (n % 10)]

/-- Models Python `str(n)` / f-string rendering of a natural number. -/
def natToChars (n : ℕ) : Name := natToCharsAux (n + 1) n

/-- Models Python f-string rendering of an integer (used for the threshold). -/
def intToChars (i : ℤ) : Name :=
  if i < 0 then '-' :: natToChars i.natAbs else natToChars i.toNat

/-! ## The silence-detector output parser (`detect_silence`, lines 79-90)

A diagnostic line of the engine is modelled by which of the two markers it
carries and the timestamp parsed from it: `silence_start` holds the value
parsed after the `silence_start: ` marker when the line contains that marker,
and `silence_end` likewise.  The Python loop checks the two markers with two
independent `if`s, so a line may in principle carry both; the model keeps the
two fields independent for faithfulness.  The loop variable `start` is read
before any assignment when an end marker arrives first, which raises
`NameError` in Python. -/

structure Line where
  silence_start : Option ℚ
  silence_end : Option ℚ
deriving DecidableEq

/-- Error outcomes of the Python code. -/
inductive Err where
  /-- Python `NameError`: `start` referenced before assignment (line 88). -/
  | nameError
  /-- Python `ValueError`: `int()` applied to a non-numeric string (line 142). -/
  | valueError
  /-- Python `IndexError`: `split('_')[1]` on a name with no underscore (line 142). -/
  | indexError
  /-- The sidecar cache is absent or not a JSON list of pairs (line 139). -/
  | jsonError
deriving DecidableEq

/-- Result of a fallible step. -/
inductive Res (α : Type) where
  | ok (a : α)
  | err (e : Err)
deriving DecidableEq

/-- One iteration of the parsing loop of `detect_silence`: the state is the
current value of the Python variable `start` (none = never assigned) together
with the `silences` accumulator.  A start marker assigns `start`; an end
marker then appends `(start, end)`, reading `start` — a `NameError` if it was
never assigned.  `start` is not cleared by an append, exactly as in the code. -/
def detectLine (st : Option ℚ × List (ℚ × ℚ)) (l : Line) : Res (Option ℚ × List (ℚ × ℚ)) :=
  let st1 := match l.silence_start with
    | some s => (some s, st.2)
    | none => st
  match l.silence_end with
  | some e =>
    match st1.1 with
    | some s => .ok (some s, st1.2 ++ [(s, e)])
    | none => .err .nameError
  | none => .ok st1

/-- The parsing loop of `detect_silence` over the remaining lines. -/
def detectLoop (st : Option ℚ × List (ℚ × ℚ)) : List Line → Res (Option ℚ × List (ℚ × ℚ))
  | [] => .ok st
  | l :: rest =>
    match detectLine st l with
    | .ok st1 => detectLoop st1 rest
    | .err e => .err e

/-- `detect_silence` (lines 69-90), applied to the diagnostic lines captured
from the engine: returns the list of `(start, end)` pairs. -/
def detect_silence (lines : List Line) : Res (List (ℚ × ℚ)) :=
  match detectLoop (none, []) lines with
  | .ok st => .ok st.2
  | .err e => .err e

/-! ## `sort_chunks` (lines 93-99) -/

/-- Models `re.search(r'chunk_(\d+)', filename)` followed by `int(...)`: the
first position where the literal `chunk_` is followed by at least one digit,
taking the maximal digit run.  `none` models a failed search, for which the
Python code uses the sort key `float('inf')`. -/
def extract_chunk_number : Name → Option ℕ
  | [] => none
  | c :: rest =>
    if ("chunk_".toList).isPrefixOf (c :: rest) then
      let ds := ((c :: rest).drop 6).takeWhile Char.isDigit
      if ds.isEmpty then extract_chunk_number rest else some (digitsVal ds)
    else extract_chunk_number rest

/-- The sort key of `sort_chunks`: the embedded chunk number, with `⊤`
modelling `float('inf')` for names where the search fails. -/
def chunkKey (f : Name) : WithTop ℕ :=
  match extract_chunk_number f with
  | some n => (n : WithTop ℕ)
  | none => ⊤

/-- Comparison of names by `chunkKey`, the order `sorted(..., key=...)` uses. -/
def chunkLe (a b : Name) : Prop := chunkKey a ≤ chunkKey b

instance : DecidableRel chunkLe := fun a b => inferInstanceAs (Decidable (chunkKey a ≤ chunkKey b))

instance : IsTotal Name chunkLe := ⟨fun a b => le_total (chunkKey a) (chunkKey b)⟩

instance : IsTrans Name chunkLe := ⟨fun _ _ _ h h2 => le_trans h h2⟩

/-- `sort_chunks` (lines 93-99): Python's `sorted` is a stable sort by the
key; it is modelled by the stable `insertionSort` under `chunkLe`. -/
def sort_chunks (chunk_files : List Name) : List Name := chunk_files.insertionSort chunkLe

/-! ## The chunker (`extract_audio_chunks`, lines 33-66) -/

/-- Number of segments: `math.ceil(duration / chunk_duration)` (line 42). -/
def numChunks (T d : ℚ) : ℕ := (⌈T / d⌉).toNat

/-- The name of the segment with 0-based loop index `i`: `chunk_{i+1}.wav`. -/
def chunkName (i : ℕ) : Name := "chunk_".toList ++ natToChars (i + 1) ++ ".wav".toList

/-- Requested start of segment `i`: `i * chunk_duration` (line 48). -/
def chunkStart (d : ℚ) (i : ℕ) : ℚ := (i : ℚ) * d

/-- The ordered list of segment file names the chunker returns. -/
def chunk_files (T d : ℚ) : List Name := (List.range (numChunks T d)).map chunkName

/-- The source-global time range the engine reads for `input(ss, t)` against a
source of total duration `T`: it starts at `ss` and stops after `t` seconds or
at the end of the source, whichever comes first. -/
def effectiveRange (T ss t : ℚ) : ℚ × ℚ := (ss, min (ss + t) T)

/-! ## The output directory as a filesystem, and engine calls -/

/-- Contents of a file in the output directory, as determined by the engine
invocation (or the `json.dump`) that created it. -/
inductive FileData where
  /-- A segment written by the chunker: `input(ss, t)` transcoded to wav. -/
  | wav (ss t : ℚ)
  /-- A sidecar silence cache: a JSON list of `[start, end]` pairs. -/
  | json (silences : List (ℚ × ℚ))
  /-- A split audio file: `input(ss[, to])` in the source codec; `none` for
  the final split, which runs to the end of the source. -/
  | audio (ss : ℚ) (toTime : Option ℚ)
  /-- A cover image extracted at the given timestamp. -/
  | jpg (ts : ℚ)
deriving DecidableEq

/-- The output directory: an association list from names to contents, in
creation order (which is the order `os.listdir` is modelled to return). -/
abbrev FS := List (Name × FileData)

/-- Contents stored under a name, if present. -/
def FS.lookup : FS → Name → Option FileData
  | [], _ => none
  | (m, dta) :: rest, n => if m = n then some dta else FS.lookup rest n

/-- Models `os.path.exists` inside the output directory. -/
def FS.exists? (fs : FS) (n : Name) : Bool := (FS.lookup fs n).isSome

/-- Writing a file: overwrites in place, or appends a new entry. -/
def FS.write : FS → Name → FileData → FS
  | [], n, dta => [(n, dta)]
  | (m, d0) :: rest, n, dta =>
    if m = n then (m, dta) :: rest else (m, d0) :: FS.write rest n dta

/-- Models `os.listdir` of the output directory. -/
def FS.names (fs : FS) : List Name := fs.map (·.1)

/-- One synchronous invocation of the external media engine. -/
inductive Call where
  /-- `ffmpeg.probe` (lines 22, 38, 131, 199). -/
  | probe
  /-- Extraction of one wav segment from `input(ss, t)` (lines 57-62). -/
  | extractWav (ss t : ℚ)
  /-- The `silencedetect` filter run against a segment (lines 71-77). -/
  | silencedetect (chunk : Name)
  /-- Extraction of one split's audio from `input(ss[, to])` (lines 164-169, 188-193). -/
  | extractAudio (ss : ℚ) (toTime : Option ℚ)
  /-- Extraction of a single frame at the given timestamp (lines 105-110). -/
  | frame (ts : ℚ)
deriving DecidableEq

/-- The source container file, as the external engine reports it, together
with the diagnostic lines the `silencedetect` filter emits for each segment
file.  The source is assumed to carry an audio stream (the `MissingAudioStream`
abort is outside the claims under verification). -/
structure Source where
  duration : ℚ
  codec : Name
  container : Name
  stderrLines : Name → List Line

/-! ## The chunker loop (lines 47-64) -/

/-- The loop body of `extract_audio_chunks` over the remaining 0-based chunk
indices: a segment already on disk is skipped, otherwise the engine extracts
`input(i*d, d)` into `chunk_{i+1}.wav`. -/
def chunkLoop (d : ℚ) (fs : FS) : List ℕ → FS × List Call
  | [] => (fs, [])
  | i :: rest =>
    if FS.exists? fs (chunkName i) then chunkLoop d fs rest
    else
      let fs1 := FS.write fs (chunkName i) (.wav (chunkStart d i) d)
      let out := chunkLoop d fs1 rest
      (out.1, .extractWav (chunkStart d i) d :: out.2)

/-- `extract_audio_chunks` (lines 33-66): probes the source for its duration,
then extracts each missing segment; returns the ordered list of segment file
names regardless of cache hits. -/
def extract_audio_chunks (src : Source) (d : ℚ) (fs : FS) : FS × List Call × List Name :=
  let out := chunkLoop d fs (List.range (numChunks src.duration d))
  (out.1, .probe :: out.2, chunk_files src.duration d)

/-! ## The detection stage of `process_mkv_file` (lines 217-232) -/

/-- Models `os.path.splitext(name)[0]`: the name up to its last dot. -/
def splitextBase (n : Name) : Name :=
  let parts := splitOnChar '.' n
  if parts.length ≤ 1 then n else List.intercalate ['.'] parts.dropLast

/-- The sidecar cache name for a segment file:
`splitext(chunk_file)[0] + "_silence_{threshold}.json"` (line 221). -/
def cacheName (chunk : Name) (thr : ℤ) : Name :=
  splitextBase chunk ++ "_silence_".toList ++ intToChars thr ++ ".json".toList

/-- The per-segment detection loop (lines 217-232): a segment whose cache file
exists is skipped; otherwise the engine's silence filter runs, its diagnostic
lines are parsed by `detect_silence`, and the result is dumped to the cache. -/
def detectStage (src : Source) (thr : ℤ) (fs : FS) : List Name → Res (FS × List Call)
  | [] => .ok (fs, [])
  | chunk :: rest =>
    if FS.exists? fs (cacheName chunk thr) then detectStage src thr fs rest
    else
      match detect_silence (src.stderrLines chunk) with
      | .err e => .err e
      | .ok silences =>
        match detectStage src thr (FS.write fs (cacheName chunk thr) (.json silences)) rest with
        | .err e => .err e
        | .ok (fs2, calls) => .ok (fs2, .silencedetect chunk :: calls)

/-! ## The splitter (`split_original_by_silence`, lines 113-199) -/

/-- The suffix the splitter's cache-file filter matches (line 124). -/
def cacheSuffix (thr : ℤ) : Name := "_silence_".toList ++ intToChars thr ++ ".json".toList

/-- The filter of line 122-125: ends with `_silence_{thr}.json` and does not
start with a dot. -/
def isCacheFile (thr : ℤ) (f : Name) : Bool :=
  (cacheSuffix thr).isSuffixOf f && !(['.'].isPrefixOf f)

/-- `int(chunk_file.split('_')[1]) - 1` (line 142): the 0-based chunk index
recovered from a cache file name; raises when the name has no second
underscore field or that field is not an integer. -/
def chunkIdxOf (f : Name) : Res ℤ :=
  match (splitOnChar '_' f).get? 1 with
  | none => .err .indexError
  | some s =>
    match parseInt s with
    | none => .err .valueError
    | some n => .ok (n - 1)

/-- `json.load` of a sidecar cache (lines 138-139). -/
def loadCache (fs : FS) (f : Name) : Res (List (ℚ × ℚ)) :=
  match FS.lookup fs f with
  | some (.json l) => .ok l
  | _ => .err .jsonError

/-- The cache-loading loop (lines 133-145): loads each cache file, offsets its
intervals by `chunk_idx * chunk_duration`, and concatenates in file order. -/
def gatherLoop (fs : FS) (d : ℚ) : List Name → Res (List (ℚ × ℚ))
  | [] => .ok []
  | f :: rest =>
    match loadCache fs f with
    | .err e => .err e
    | .ok silences =>
      match chunkIdxOf f with
      | .err e => .err e
      | .ok idx =>
        match gatherLoop fs d rest with
        | .err e => .err e
        | .ok others => .ok ((silences.map fun p => (p.1 + idx * d, p.2 + idx * d)) ++ others)

/-- The audio file name of split number `k`: `split_{k}.{container_format}`. -/
def splitAudioName (k : ℕ) (container : Name) : Name :=
  "split_".toList ++ natToChars k ++ ['.'] ++ container

/-- The cover image name of split number `k`: `split_{k}.jpg`. -/
def splitImageName (k : ℕ) : Name := "split_".toList ++ natToChars k ++ ".jpg".toList

/-- `extract_middle_frame`'s timestamp (line 103): the midpoint of the range. -/
def middleTime (start_time end_time : ℚ) : ℚ := (start_time + end_time) / 2

/-! The interval walk of lines 148-178, in two forms: `walkGo` is the pure
skeleton (the `prev_end` / `split_count` bookkeeping and the emitted split
ranges, which do not depend on the filesystem), and `emitLoop` is the loop as
run, with the existence checks, writes and engine calls. -/

/-- One split the walk decides to emit: its number (`split_count + 1` at
emission time) and its source-global range `[start, stop)`. -/
structure Split where
  number : ℕ
  start : ℚ
  stop : ℚ
deriving DecidableEq

/-- Pure state of the walk: `prev_end`, `split_count`, and the splits emitted
so far. -/
structure WalkSt where
  prev_end : ℚ
  split_count : ℕ
  splits : List Split
deriving DecidableEq

/-- One iteration of the walk (lines 148-178): a silence whose start is less
than 10 seconds past `prev_end` is merged (no split, but the counter still
advances); otherwise split number `split_count + 1` covering
`[prev_end, silence.start)` is emitted.  Either way `prev_end` moves to the
silence's end and the counter increments. -/
def walkStep (st : WalkSt) (silence : ℚ × ℚ) : WalkSt :=
  if silence.1 - st.prev_end < 10 then
    ⟨silence.2, st.split_count + 1, st.splits⟩
  else
    ⟨silence.2, st.split_count + 1, st.splits ++ [⟨st.split_count + 1, st.prev_end, silence.1⟩]⟩

/-- The walk over the remaining global silence list. -/
def walkGo (st : WalkSt) : List (ℚ × ℚ) → WalkSt
  | [] => st
  | s :: rest => walkGo (walkStep st s) rest

/-- The walk of the whole global silence list, from `prev_end = 0`,
`split_count = 0` (lines 117-118). -/
def walk (ivs : List (ℚ × ℚ)) : WalkSt := walkGo ⟨0, 0, []⟩ ivs

/-- Everything the splitter emits: the walk's splits followed by the one
final split covering `[prev_end, source_duration)`, appended with no guard
(lines 180-199). -/
def splitPlan (T : ℚ) (ivs : List (ℚ × ℚ)) : List Split :=
  (walk ivs).splits ++ [⟨(walk ivs).split_count + 1, (walk ivs).prev_end, T⟩]

/-- State of the emission loop as run: the directory, the engine calls made so
far, and the two loop variables. -/
structure EmitSt where
  fs : FS
  calls : List Call
  prev_end : ℚ
  split_count : ℕ
deriving DecidableEq

/-- One iteration of the emission loop (lines 148-178), faithful to the code:
in the merge branch nothing is emitted; otherwise the split audio and its
cover image are each created only if not already on disk. -/
def emitOne (src : Source) (st : EmitSt) (silence : ℚ × ℚ) : EmitSt :=
  if silence.1 - st.prev_end < 10 then
    { st with prev_end := silence.2, split_count := st.split_count + 1 }
  else
    let audio := splitAudioName (st.split_count + 1) src.container
    let image := splitImageName (st.split_count + 1)
    let step1 :=
      if FS.exists? st.fs audio then (st.fs, st.calls)
      else (FS.write st.fs audio (.audio st.prev_end (some silence.1)),
            st.calls ++ [.extractAudio st.prev_end (some silence.1)])
    let step2 :=
      if FS.exists? step1.1 image then step1
      else (FS.write step1.1 image (.jpg (middleTime st.prev_end silence.1)),
            step1.2 ++ [.frame (middleTime st.prev_end silence.1)])
    { fs := step2.1, calls := step2.2, prev_end := silence.2, split_count := st.split_count + 1 }

/-- The emission loop over the remaining global silence list. -/
def emitLoop (src : Source) (st : EmitSt) : List (ℚ × ℚ) → EmitSt
  | [] => st
  | s :: rest => emitLoop src (emitOne src st s) rest

/-- The unconditional final emission (lines 180-199): the split from
`prev_end` to the end of the source, plus its cover image; creating the image
re-probes the source for its duration (line 199). -/
def finalEmit (src : Source) (st : EmitSt) : EmitSt :=
  let audio := splitAudioName (st.split_count + 1) src.container
  let image := splitImageName (st.split_count + 1)
  let step1 :=
    if FS.exists? st.fs audio then (st.fs, st.calls)
    else (FS.write st.fs audio (.audio st.prev_end none),
          st.calls ++ [.extractAudio st.prev_end none])
  let step2 :=
    if FS.exists? step1.1 image then step1
    else (FS.write step1.1 image (.jpg (middleTime st.prev_end src.duration)),
          step1.2 ++ [.probe, .frame (middleTime st.prev_end src.duration)])
  { st with fs := step2.1, calls := step2.2 }

/-- `split_original_by_silence` (lines 113-199): discovers the cache files for
the threshold, sorts them by embedded chunk number, probes the source for its
codec, loads and offsets all cached intervals, then walks the global list
emitting splits and the final split. -/
def split_original_by_silence (src : Source) (d : ℚ) (thr : ℤ) (fs : FS) :
    Res (FS × List Call) :=
  let files := sort_chunks ((FS.names fs).filter (isCacheFile thr))
  match gatherLoop fs d files with
  | .err e => .err e
  | .ok all_silences =>
    let st := finalEmit src (emitLoop src ⟨fs, [], 0, 0⟩ all_silences)
    .ok (st.fs, .probe :: st.calls)

/-- `process_mkv_file` (lines 202-238): the three stages in sequence, with the
engine calls of each stage concatenated in order. -/
def process (src : Source) (d : ℚ) (thr : ℤ) (fs : FS) : Res (FS × List Call) :=
  let stage1 := extract_audio_chunks src d fs
  match detectStage src thr stage1.1 stage1.2.2 with
  | .err e => .err e
  | .ok (fs2, c2) =>
    match split_original_by_silence src d thr fs2 with
    | .err e => .err e
    | .ok (fs3, c3) => .ok (fs3, stage1.2.1 ++ c2 ++ c3)

/-! ## Basic lemmas about the filesystem model -/

theorem FS.lookup_write (fs : FS) (n : Name) (v : FileData) (m : Name) :
    FS.lookup (FS.write fs n v) m = if n = m then some v else FS.lookup fs m := by
  induction fs with
  | nil =>
    by_cases h : n = m <;> simp [FS.write, FS.lookup, h]
  | cons p rest ih =>
    obtain ⟨m0, d0⟩ := p
    by_cases h0 : m0 = n
    · subst h0
      by_cases h : m0 = m <;> simp [FS.write, FS.lookup, h]
    · by_cases h : m0 = m
      · subst h
        have : ¬ n = m0 := fun hnm => h0 hnm.symm
        simp [FS.write, FS.lookup, h0, this]
      · simp [FS.write, FS.lookup, h0, h, ih]

theorem FS.write_absent (fs : FS) (n : Name) (v : FileData)
    (h : FS.exists? fs n = false) : FS.write fs n v = fs ++ [(n, v)] := by
  induction fs with
  | nil => simp [FS.write]
  | cons p rest ih =>
    obtain ⟨m0, d0⟩ := p
    simp only [FS.exists?, FS.lookup] at h
    by_cases h0 : m0 = n
    · simp [h0] at h
    · simp only [FS.exists?] at ih
      simp [FS.write, h0, ih (by simpa [h0] using h)]

theorem FS.lookup_append (fs ex : FS) (m : Name) :
    FS.lookup (fs ++ ex) m =
      match FS.lookup fs m with
      | some v => some v
      | none => FS.lookup ex m := by
  induction fs with
  | nil => simp [FS.lookup]
  | cons p rest ih =>
    obtain ⟨m0, d0⟩ := p
    by_cases h0 : m0 = m <;> simp [FS.lookup, h0, ih]

theorem FS.exists?_append (fs ex : FS) (m : Name) :
    FS.exists? (fs ++ ex) m = (FS.exists? fs m || FS.exists? ex m) := by
  simp only [FS.exists?, FS.lookup_append]
  cases FS.lookup fs m <;> simp

theorem FS.mem_names_lookup {fs : FS} {m : Name} :
    m ∈ FS.names fs → ∃ v, FS.lookup fs m = some v := by
  induction fs with
  | nil => intro h; simp [FS.names] at h
  | cons p rest ih =>
    obtain ⟨m0, d0⟩ := p
    intro h
    simp only [FS.names, List.map_cons, List.mem_cons] at h
    by_cases h0 : m0 = m
    · exact ⟨d0, by simp [FS.lookup, h0]⟩
    · rcases h with h | h
      · exact absurd h.symm h0
      · obtain ⟨v, hv⟩ := ih h
        exact ⟨v, by simp [FS.lookup, h0, hv]⟩

theorem FS.names_write_absent (fs : FS) (n : Name) (v : FileData)
    (h : FS.exists? fs n = false) :
    FS.names (FS.write fs n v) = FS.names fs ++ [n] := by
  rw [FS.write_absent fs n v h]
  simp [FS.names]

/-! ## Claims C2, C3 and C7: the interval walk -/

/-- C2: a global interval starting less than 10 seconds past `prev_end` emits
nothing, advances `prev_end` to its end, and still increments the split
counter, so the next emitted split is numbered `split_count + 2` — the
filename numbering skips a value. -/
theorem c2_merge_no_emit_counter_still_increments
    (src : Source) (st : WalkSt) (est : EmitSt) (iv nxt : ℚ × ℚ)
    (h : iv.1 - st.prev_end < 10) (h2 : iv.1 - est.prev_end < 10)
    (h3 : ¬ (nxt.1 - iv.2 < 10)) :
    walkStep st iv = ⟨iv.2, st.split_count + 1, st.splits⟩ ∧
    emitOne src est iv
      = { est with prev_end := iv.2, split_count := est.split_count + 1 } ∧
    (walkStep (walkStep st iv) nxt).splits
      = st.splits ++ [⟨st.split_count + 2, iv.2, nxt.1⟩] := by
  refine ⟨?_, ?_, ?_⟩
  · simp [walkStep, h]
  · simp [emitOne, h2]
  · simp [walkStep, h, h3]

/-- Witness for C2 at a concrete state and intervals. -/
theorem c2_witness :
    walkStep ⟨0, 0, []⟩ (5, 20) = ⟨20, 1, []⟩ ∧
    emitOne ⟨0, [], [], fun _ => []⟩ ⟨[], [], 0, 0⟩ (5, 20) = ⟨[], [], 20, 1⟩ ∧
    (walkStep (walkStep ⟨0, 0, []⟩ (5, 20)) (40, 50)).splits = [⟨2, 20, 40⟩] := by
  have h := c2_merge_no_emit_counter_still_increments
    ⟨0, [], [], fun _ => []⟩ ⟨0, 0, []⟩ ⟨[], [], 0, 0⟩ (5, 20) (40, 50)
    (by norm_num) (by norm_num) (by norm_num)
  simpa using h

/-- C3: after the interval list is exhausted the splitter emits exactly one
final split covering `[prev_end, source_duration)` with a thumbnail at the
midpoint of that range, with no guard against `prev_end ≥ duration`: the
emission is unconditional in the state's `prev_end`. -/
theorem c3_final_split_unconditional (src : Source) (st : EmitSt) (T : ℚ)
    (ivs : List (ℚ × ℚ))
    (ha : FS.exists? st.fs (splitAudioName (st.split_count + 1) src.container) = false)
    (hi : FS.exists? st.fs (splitImageName (st.split_count + 1)) = false)
    (hne : splitAudioName (st.split_count + 1) src.container
            ≠ splitImageName (st.split_count + 1)) :
    (finalEmit src st).fs
      = FS.write
          (FS.write st.fs (splitAudioName (st.split_count + 1) src.container)
            (.audio st.prev_end none))
          (splitImageName (st.split_count + 1))
          (.jpg (middleTime st.prev_end src.duration)) ∧
    (finalEmit src st).calls
      = st.calls ++ [.extractAudio st.prev_end none]
          ++ [.probe, .frame (middleTime st.prev_end src.duration)] ∧
    (splitPlan T ivs).getLast?
      = some ⟨(walk ivs).split_count + 1, (walk ivs).prev_end, T⟩ ∧
    (splitPlan T ivs).dropLast = (walk ivs).splits := by
  have himg : FS.exists?
      (FS.write st.fs (splitAudioName (st.split_count + 1) src.container)
        (.audio st.prev_end none))
      (splitImageName (st.split_count + 1)) = false := by
    simp only [FS.exists?, FS.lookup_write, if_neg hne]
    exact hi
  refine ⟨?_, ?_, ?_, ?_⟩
  · simp [finalEmit, ha, himg]
  · simp [finalEmit, ha, himg]
  · simp [splitPlan]
  · simp [splitPlan]

/-- Witness for C3, in a state whose `prev_end` (50) already exceeds the
source duration (30): the zero-guard-free final split is still emitted. -/
theorem c3_witness :
    (finalEmit ⟨30, "aac".toList, "mkv".toList, fun _ => []⟩ ⟨[], [], 50, 1⟩).fs
      = FS.write (FS.write [] (splitAudioName 2 "mkv".toList) (.audio 50 none))
          (splitImageName 2) (.jpg (middleTime 50 30)) ∧
    (finalEmit ⟨30, "aac".toList, "mkv".toList, fun _ => []⟩ ⟨[], [], 50, 1⟩).calls
      = [] ++ [.extractAudio 50 none] ++ [.probe, .frame (middleTime 50 30)] ∧
    (splitPlan 30 [(0, 50)]).getLast?
      = some ⟨(walk [(0, 50)]).split_count + 1, (walk [(0, 50)]).prev_end, 30⟩ ∧
    (splitPlan 30 [(0, 50)]).dropLast = (walk [(0, 50)]).splits :=
  c3_final_split_unconditional ⟨30, "aac".toList, "mkv".toList, fun _ => []⟩
    ⟨[], [], 50, 1⟩ 30 [(0, 50)] (by decide) (by decide) (by decide)

/-- Every split the walk has emitted satisfies the 10-second lower bound, an
invariant of `walkStep`. -/
theorem walkGo_splits_min (ivs : List (ℚ × ℚ)) :
    ∀ st : WalkSt, (∀ sp ∈ st.splits, 10 ≤ sp.stop - sp.start) →
      ∀ sp ∈ (walkGo st ivs).splits, 10 ≤ sp.stop - sp.start := by
  induction ivs with
  | nil => intro st h sp hm; exact h sp hm
  | cons iv rest ih =>
    intro st h
    refine ih (walkStep st iv) ?_
    intro sp hm
    by_cases hc : iv.1 - st.prev_end < 10
    · simp only [walkStep, if_pos hc] at hm
      exact h sp hm
    · simp only [walkStep, if_neg hc, List.mem_append, List.mem_singleton] at hm
      rcases hm with hm | hm
      · exact h sp hm
      · subst hm
        simpa using not_lt.mp hc

/-- C7: every split emitted before the final trailing one has duration at
least 10 seconds (so only the final split may be shorter). -/
theorem c7_nonfinal_splits_at_least_ten (T : ℚ) (ivs : List (ℚ × ℚ)) :
    ∀ sp ∈ (splitPlan T ivs).dropLast, 10 ≤ sp.stop - sp.start := by
  intro sp hm
  rw [splitPlan, List.dropLast_concat] at hm
  exact walkGo_splits_min ivs ⟨0, 0, []⟩ (by simp) sp hm

/-- Witness for C7 on the worked scenario: the single non-final split
`[0, 2000)` has duration at least 10. -/
theorem c7_witness :
    (⟨1, 0, 2000⟩ : Split) ∈ (splitPlan 5400 [(2000, 2010)]).dropLast ∧
    (10 : ℚ) ≤ (2000 : ℚ) - 0 := by
  have hmem : (⟨1, 0, 2000⟩ : Split) ∈ (splitPlan 5400 [(2000, 2010)]).dropLast := by
    rw [splitPlan, List.dropLast_concat]
    norm_num [walk, walkGo, walkStep]
  exact ⟨hmem, by
    simpa using c7_nonfinal_splits_at_least_ten 5400 [(2000, 2010)] ⟨1, 0, 2000⟩ hmem⟩

/-! ## Claim C4: the chunker -/

/-- C4: for positive total and chunk durations the chunker produces exactly
`⌈T/d⌉` segments (at least one), the segment with 0-based index `i` reads the
source-global range `[i·d, min((i+1)·d, T))`, and the returned list of
segment file names carries index `i` at position `i`. -/
theorem c4_chunker_ranges (T d : ℚ) (hT : 0 < T) (hd : 0 < d)
    (src : Source) (fs : FS) (hdur : src.duration = T) :
    (chunk_files T d).length = (⌈T / d⌉).toNat ∧
    0 < (chunk_files T d).length ∧
    (∀ i, i < numChunks T d →
      effectiveRange T (chunkStart d i) d = ((i : ℚ) * d, min (((i : ℚ) + 1) * d) T)) ∧
    (∀ i (h : i < (chunk_files T d).length),
      (chunk_files T d).get ⟨i, h⟩ = chunkName i) ∧
    (extract_audio_chunks src d fs).2.2 = chunk_files T d := by
  refine ⟨by simp [chunk_files, numChunks], ?_, ?_, ?_,
    by simp only [extract_audio_chunks]; rw [hdur]⟩
  · have hpos : (0 : ℤ) < ⌈T / d⌉ := Int.ceil_pos.mpr (div_pos hT hd)
    simp only [chunk_files, List.length_map, List.length_range, numChunks]
    omega
  · intro i _
    have harith : (i : ℚ) * d + d = ((i : ℚ) + 1) * d := by ring
    simp [effectiveRange, chunkStart, harith]
  · intro i h
    simp [chunk_files, List.get_eq_getElem]

/-- Witness for C4 at `T = 5400`, `d = 2700`: two segments, and segment 1
reads `[2700, min(5400, 5400))`. -/
theorem c4_witness :
    (chunk_files 5400 2700).length = (⌈(5400 : ℚ) / 2700⌉).toNat ∧
    effectiveRange 5400 (chunkStart 2700 1) 2700
      = ((1 : ℚ) * 2700, min (((1 : ℚ) + 1) * 2700) 5400) := by
  have h := c4_chunker_ranges 5400 2700 (by norm_num) (by norm_num)
    ⟨5400, "aac".toList, "mkv".toList, fun _ => []⟩ [] rfl
  have h2 : numChunks 5400 2700 = 2 := by
    unfold numChunks
    rw [show (⌈(5400 : ℚ) / 2700⌉ : ℤ) = 2 by norm_num]
    rfl
  exact ⟨h.1, h.2.2.1 1 (by rw [h2]; norm_num)⟩

/-! ## Claim C5: the silence parser emits strict pairs and drops a trailing
start marker -/

/-- Appending lines distributes over the parsing loop. -/
theorem detectLoop_append (l1 l2 : List Line) :
    ∀ st, detectLoop st (l1 ++ l2)
      = match detectLoop st l1 with
        | .ok st1 => detectLoop st1 l2
        | .err e => .err e := by
  induction l1 with
  | nil => intro st; simp [detectLoop]
  | cons l rest ih =>
    intro st
    simp only [List.cons_append, detectLoop]
    cases detectLine st l with
    | ok st1 => exact ih st1
    | err e => rfl

/-- C5: the parser walks the lines in order; a line with only a start marker
changes no emitted interval (so a trailing unmatched start is dropped), and a
line with an end marker appends exactly the pair `(start, end)` for the most
recently recorded start. -/
theorem c5_pairs_and_trailing_start_dropped :
    (∀ (lines : List Line) (s : ℚ),
      detect_silence (lines ++ [⟨some s, none⟩]) = detect_silence lines) ∧
    (∀ (lines : List Line) (s e : ℚ) (acc : List (ℚ × ℚ)),
      detectLoop (none, []) lines = .ok (some s, acc) →
      detect_silence (lines ++ [⟨none, some e⟩]) = .ok (acc ++ [(s, e)])) := by
  constructor
  · intro lines s
    unfold detect_silence
    rw [detectLoop_append]
    cases h : detectLoop (none, []) lines with
    | ok st1 => simp [detectLoop, detectLine]
    | err e => rfl
  · intro lines s e acc h
    unfold detect_silence
    rw [detectLoop_append, h]
    simp [detectLoop, detectLine]

/-- Witness for C5: `[start 1, end 3]` yields the single pair `(1, 3)`, and a
trailing start marker after a lone start line changes nothing. -/
theorem c5_witness :
    detect_silence ([⟨some 1, none⟩] ++ [⟨none, some 3⟩]) = .ok ([] ++ [(1, 3)]) ∧
    detect_silence ([⟨some 2, none⟩] ++ [⟨some 7, none⟩]) = detect_silence [⟨some 2, none⟩] :=
  ⟨c5_pairs_and_trailing_start_dropped.2 [⟨some 1, none⟩] 1 3 [] rfl,
   c5_pairs_and_trailing_start_dropped.1 [⟨some 2, none⟩] 7⟩

/-! ## Claim C10: totality of the parser under the marker precondition -/

/-- Once the `start` variable has been assigned, the parsing loop can no
longer fail: a start assignment is never cleared. -/
theorem detectLoop_some (lines : List Line) :
    ∀ (s : ℚ) (acc : List (ℚ × ℚ)), ∃ r, detectLoop (some s, acc) lines = .ok r := by
  induction lines with
  | nil => exact fun s acc => ⟨(some s, acc), rfl⟩
  | cons l rest ih =>
    intro s acc
    cases hs : l.silence_start with
    | some s2 =>
      cases he : l.silence_end with
      | some e => simpa [detectLoop, detectLine, hs, he] using ih s2 (acc ++ [(s2, e)])
      | none => simpa [detectLoop, detectLine, hs, he] using ih s2 acc
    | none =>
      cases he : l.silence_end with
      | some e => simpa [detectLoop, detectLine, hs, he] using ih s (acc ++ [(s, e)])
      | none => simpa [detectLoop, detectLine, hs, he] using ih s acc

/-- While no start marker has been seen, every line whose end-marker field is
set makes the loop fail with the never-assigned-start error. -/
theorem detectLoop_none_err (lines : List Line) :
    ∀ (acc : List (ℚ × ℚ)) (j : ℕ) (hj : j < lines.length),
      (lines.get ⟨j, hj⟩).silence_end.isSome = true →
      (lines.get ⟨j, hj⟩).silence_start = none →
      (∀ i (hi : i < lines.length), i < j → (lines.get ⟨i, hi⟩).silence_start = none) →
      detectLoop (none, acc) lines = .err .nameError := by
  induction lines with
  | nil => intro acc j hj; simp at hj
  | cons l rest ih =>
    intro acc j hj hje hjs hpre
    cases j with
    | zero =>
      have h0 : l.silence_start = none := hjs
      cases he : l.silence_end with
      | none =>
        have h1 : l.silence_end.isSome = true := hje
        rw [he] at h1
        simp at h1
      | some e => simp [detectLoop, detectLine, h0, he]
    | succ j0 =>
      have h0 : l.silence_start = none := hpre 0 (by simp) (by omega)
      cases he : l.silence_end with
      | some e => simp [detectLoop, detectLine, h0, he]
      | none =>
        have hstep : detectLoop (none, acc) (l :: rest) = detectLoop (none, acc) rest := by
          simp [detectLoop, detectLine, h0, he]
        rw [hstep]
        exact ih acc j0 (by simpa using hj) hje hjs
          (fun i hi hlt => hpre (i + 1) (by simp; omega) (by omega))

/-- C10: the parser is total exactly when no end marker precedes every start
marker: if every line carrying an end marker is preceded by a line carrying a
start marker the error branch is unreachable, while a stream whose first
end-marker line has no start marker on or before it fails with the
never-assigned-start error instead of returning a list. -/
theorem c10_totality_iff_start_precedes_end :
    (∀ lines : List Line,
      (∀ j (hj : j < lines.length), ((lines.get ⟨j, hj⟩).silence_end).isSome = true →
        ∃ i, ∃ hi : i < lines.length, i < j ∧
          ((lines.get ⟨i, hi⟩).silence_start).isSome = true) →
      ∃ res, detect_silence lines = .ok res) ∧
    (∀ (lines : List Line) (j : ℕ) (hj : j < lines.length),
      (lines.get ⟨j, hj⟩).silence_end.isSome = true →
      (lines.get ⟨j, hj⟩).silence_start = none →
      (∀ i (hi : i < lines.length), i < j → (lines.get ⟨i, hi⟩).silence_start = none) →
      detect_silence lines = .err .nameError) := by
  constructor
  · intro lines
    induction lines with
    | nil => intro _; exact ⟨[], rfl⟩
    | cons l rest ih =>
      intro hpre
      cases hs : l.silence_start with
      | some s =>
        cases he : l.silence_end with
        | some e =>
          obtain ⟨r, hr⟩ := detectLoop_some rest s [(s, e)]
          exact ⟨r.2, by simp [detect_silence, detectLoop, detectLine, hs, he, hr]⟩
        | none =>
          obtain ⟨r, hr⟩ := detectLoop_some rest s []
          exact ⟨r.2, by simp [detect_silence, detectLoop, detectLine, hs, he, hr]⟩
      | none =>
        have hend : l.silence_end = none := by
          cases he : l.silence_end with
          | none => rfl
          | some e =>
            obtain ⟨i, hi, hlt, _⟩ := hpre 0 (by simp) (by simp [he])
            omega
        obtain ⟨res, hres⟩ := ih (fun j hj hje => by
          obtain ⟨i, hi, hlt, hstart⟩ := hpre (j + 1) (by simp; omega) hje
          cases i with
          | zero =>
            have h0 : l.silence_start.isSome = true := hstart
            rw [hs] at h0
            simp at h0
          | succ i0 =>
            exact ⟨i0, by simpa using hi, by omega, hstart⟩)
        refine ⟨res, ?_⟩
        have hstep : detect_silence (l :: rest) = detect_silence rest := by
          simp [detect_silence, detectLoop, detectLine, hs, hend]
        rw [hstep]
        exact hres
  · intro lines j hj h1 h2 h3
    unfold detect_silence
    rw [detectLoop_none_err lines [] j hj h1 h2 h3]

/-! ## Claim C1: the global offset of cached intervals -/

/-- Modelled from the spec's words for claim C1 only: the mapping the claim
asserts, offsetting both endpoints of a cached interval by
`segment_number × chunk_duration` with segments numbered from 1.  To be
compared against the offset the code computes. -/
def claimedGlobalInterval (n : ℕ) (d : ℚ) (iv : ℚ × ℚ) : ℚ × ℚ :=
  (iv.1 + (n : ℚ) * d, iv.2 + (n : ℚ) * d)

/-- Counterexample to C1: the interval `[5, 7]` cached for the segment
numbered 2 with chunk duration 100 is mapped by the code to `[105, 107]`
(offset `(2 − 1) × 100`), not to the claimed `[205, 207]` (offset `2 × 100`). -/
theorem c1_counterexample :
    gatherLoop [("chunk_2_silence_-40.json".toList, .json [(5, 7)])] 100
        ["chunk_2_silence_-40.json".toList]
      = .ok [(105, 107)] ∧
    ((105 : ℚ), (107 : ℚ)) ≠ claimedGlobalInterval 2 100 (5, 7) := by
  constructor
  · have hidx : chunkIdxOf "chunk_2_silence_-40.json".toList = .ok 1 := by decide
    simp only [gatherLoop, loadCache, FS.lookup, if_pos rfl, hidx]
    norm_num
  · simp only [claimedGlobalInterval, ne_eq, Prod.mk.injEq, not_and]
    intro h
    norm_num at h

/-- C1 as amended: a silence interval `[s, e]` cached for the segment whose
file name carries number `n` is mapped to
`[s + (n − 1)·d, e + (n − 1)·d]` — the code subtracts 1 from the embedded
segment number before multiplying by the chunk duration. -/
theorem c1_amended_offset_is_pred_times_duration
    (f ds : Name) (n : ℤ) (d : ℚ) (l : List (ℚ × ℚ)) (fs : FS)
    (hf : (splitOnChar '_' f).get? 1 = some ds)
    (hn : parseInt ds = some n)
    (hl : FS.lookup fs f = some (.json l)) :
    gatherLoop fs d [f]
      = .ok (l.map fun iv => (iv.1 + ((n : ℚ) - 1) * d, iv.2 + ((n : ℚ) - 1) * d)) := by
  simp only [gatherLoop, loadCache, hl, chunkIdxOf, hf, hn]
  norm_num

/-- Witness for C1's amended theorem at the counterexample's input. -/
theorem c1_witness :
    gatherLoop [("chunk_2_silence_-40.json".toList, .json [(5, 7)])] 100
        ["chunk_2_silence_-40.json".toList]
      = .ok ([(5, 7)].map fun iv : ℚ × ℚ =>
          (iv.1 + (((2 : ℤ) : ℚ) - 1) * 100, iv.2 + (((2 : ℤ) : ℚ) - 1) * 100)) :=
  c1_amended_offset_is_pred_times_duration
    "chunk_2_silence_-40.json".toList "2".toList 2 100 [(5, 7)]
    [("chunk_2_silence_-40.json".toList, .json [(5, 7)])]
    (by decide) (by decide) (by simp [FS.lookup])

/-! ## Claim C8: the worked 5400-second scenario -/

/-- C8: with source duration 5400, chunk duration 2700, threshold −40 and the
caches holding exactly one global silence `[2000, 2010]`, the splitter emits
exactly two splits `[0, 2000)` and `[2010, 5400)` with thumbnails at their
midpoints 1000 and 3705. -/
theorem c8_two_splits_scenario :
    split_original_by_silence ⟨5400, "aac".toList, "mkv".toList, fun _ => []⟩ 2700 (-40)
        [("chunk_1_silence_-40.json".toList, FileData.json [(2000, 2010)]),
         ("chunk_2_silence_-40.json".toList, FileData.json [])]
      = .ok ([("chunk_1_silence_-40.json".toList, FileData.json [(2000, 2010)]),
              ("chunk_2_silence_-40.json".toList, FileData.json [])]
            ++ [(splitAudioName 1 "mkv".toList, .audio 0 (some 2000)),
                (splitImageName 1, .jpg 1000),
                (splitAudioName 2 "mkv".toList, .audio 2010 none),
                (splitImageName 2, .jpg 3705)],
          [.probe, .extractAudio 0 (some 2000), .frame 1000,
           .extractAudio 2010 none, .probe, .frame 3705]) ∧
    splitPlan 5400 [(2000, 2010)] = [⟨1, 0, 2000⟩, ⟨2, 2010, 5400⟩] ∧
    middleTime 0 2000 = 1000 ∧ middleTime 2010 5400 = 3705 := by
  refine ⟨?_, by norm_num [splitPlan, walk, walkGo, walkStep],
    by norm_num [middleTime], by norm_num [middleTime]⟩
  have hfiles : sort_chunks
      ((FS.names [("chunk_1_silence_-40.json".toList, FileData.json [(2000, 2010)]),
        ("chunk_2_silence_-40.json".toList, FileData.json [])]).filter (isCacheFile (-40)))
      = ["chunk_1_silence_-40.json".toList, "chunk_2_silence_-40.json".toList] := by decide
  have hl1 : FS.lookup [("chunk_1_silence_-40.json".toList, FileData.json [(2000, 2010)]),
      ("chunk_2_silence_-40.json".toList, FileData.json [])] "chunk_1_silence_-40.json".toList
      = some (FileData.json [(2000, 2010)]) := by decide
  have hl2 : FS.lookup [("chunk_1_silence_-40.json".toList, FileData.json [(2000, 2010)]),
      ("chunk_2_silence_-40.json".toList, FileData.json [])] "chunk_2_silence_-40.json".toList
      = some (FileData.json []) := by decide
  have hi1 : chunkIdxOf "chunk_1_silence_-40.json".toList = .ok 0 := by decide
  have hi2 : chunkIdxOf "chunk_2_silence_-40.json".toList = .ok 1 := by decide
  have hgather : gatherLoop [("chunk_1_silence_-40.json".toList, FileData.json [(2000, 2010)]),
      ("chunk_2_silence_-40.json".toList, FileData.json [])] 2700
      ["chunk_1_silence_-40.json".toList, "chunk_2_silence_-40.json".toList]
      = .ok [(2000, 2010)] := by
    simp only [gatherLoop, hl1, hl2, hi1, hi2, loadCache]
    norm_num
  have hcond : ¬ ((2000 : ℚ) - 0 < 10) := by norm_num
  have hm1 : middleTime 0 2000 = 1000 := by norm_num [middleTime]
  have hm2 : middleTime 2010 5400 = 3705 := by norm_num [middleTime]
  simp only [split_original_by_silence, hfiles, hgather, emitLoop, emitOne, finalEmit,
    hm1, hm2, if_neg hcond]
  decide

/-! ## Claim C9: sorting of cache files and processing of malformed names -/

/-- Counterexample to C9: a discovered cache file without a parseable chunk
number sorts fine, but the splitter then fails on it with a `ValueError`
(`int('silence')` at line 142) instead of successfully processing it. -/
theorem c9_counterexample :
    sort_chunks ["bad_silence_-40.json".toList] = ["bad_silence_-40.json".toList] ∧
    extract_chunk_number "bad_silence_-40.json".toList = none ∧
    gatherLoop [("bad_silence_-40.json".toList, .json [])] 2700
        ["bad_silence_-40.json".toList] = .err .valueError := by
  refine ⟨by decide, by decide, ?_⟩
  decide

/-- C9 as amended: the splitter sorts the discovered cache files ascending by
embedded segment number with malformed names last, and then loads and
processes every file successfully provided each name's second
underscore-separated field parses as an integer; a malformed name that fails
this parse aborts the load loop instead. -/
theorem c9_amended_sort_ok_malformed_fail :
    (∀ files : List Name,
      List.Sorted chunkLe (sort_chunks files) ∧ (sort_chunks files).Perm files) ∧
    (∀ (files : List Name) (i j : ℕ) (hi : i < (sort_chunks files).length)
        (hj : j < (sort_chunks files).length), i ≤ j →
        extract_chunk_number ((sort_chunks files).get ⟨i, hi⟩) = none →
        extract_chunk_number ((sort_chunks files).get ⟨j, hj⟩) = none) ∧
    (∀ (fs : FS) (d : ℚ) (files : List Name),
      (∀ f ∈ files, (∃ l, FS.lookup fs f = some (.json l)) ∧
        ∃ s k, (splitOnChar '_' f).get? 1 = some s ∧ parseInt s = some k) →
      ∃ res, gatherLoop fs d files = .ok res) := by
  refine ⟨fun files => ⟨List.sorted_insertionSort chunkLe files,
    List.perm_insertionSort chunkLe files⟩, ?_, ?_⟩
  · intro files i j hi hj hij hnone
    rcases Nat.lt_or_ge i j with hlt | hge
    · have hrel : chunkLe ((sort_chunks files).get ⟨i, hi⟩)
          ((sort_chunks files).get ⟨j, hj⟩) :=
        List.Sorted.rel_get_of_lt (List.sorted_insertionSort chunkLe files) hlt
      unfold chunkLe chunkKey at hrel
      rw [hnone] at hrel
      cases hx : extract_chunk_number ((sort_chunks files).get ⟨j, hj⟩) with
      | none => rfl
      | some k =>
        rw [hx] at hrel
        exact absurd (top_le_iff.mp hrel) (by simp)
    · have hij2 : i = j := le_antisymm hij hge
      subst hij2
      exact hnone
  · intro fs d files hfiles
    induction files with
    | nil => exact ⟨[], rfl⟩
    | cons f rest ih =>
      obtain ⟨⟨l, hl⟩, s, k, hs, hk⟩ := hfiles f (by simp)
      obtain ⟨others, hothers⟩ := ih (fun g hg => hfiles g (by simp [hg]))
      refine ⟨(l.map fun p =>
        (p.1 + ((k - 1 : ℤ) : ℚ) * d, p.2 + ((k - 1 : ℤ) : ℚ) * d)) ++ others, ?_⟩
      simp only [gatherLoop, loadCache, hl, chunkIdxOf, hs, hk, hothers]

/-- Witness for C9's amended theorem: a sorted two-file directory with a
malformed name last, and a successful load of a well-formed directory. -/
theorem c9_witness :
    List.Sorted chunkLe
      (sort_chunks ["bad_silence_-40.json".toList, "chunk_1_silence_-40.json".toList]) ∧
    (∃ res, gatherLoop [("chunk_1_silence_-40.json".toList, .json [])] 2700
        ["chunk_1_silence_-40.json".toList] = .ok res) := by
  refine ⟨(c9_amended_sort_ok_malformed_fail.1 _).1, ?_⟩
  refine c9_amended_sort_ok_malformed_fail.2.2 _ 2700 _ ?_
  intro f hf
  have hf2 : f = "chunk_1_silence_-40.json".toList := by simpa using hf
  subst hf2
  exact ⟨⟨[], by simp [FS.lookup]⟩, "1".toList, 1, by decide, by decide⟩

/-! ## Claim C6: what a second run over complete outputs does

The following lemmas track, across the three stages, which files exist after
a successful run and that a run over a directory already holding every output
rewrites nothing. -/

theorem FS.exists?_write_self (fs : FS) (n : Name) (v : FileData) :
    FS.exists? (FS.write fs n v) n = true := by
  simp [FS.exists?, FS.lookup_write]

theorem FS.exists?_write_mono {fs : FS} {m : Name} (n : Name) (v : FileData)
    (h : FS.exists? fs m = true) : FS.exists? (FS.write fs n v) m = true := by
  simp only [FS.exists?, FS.lookup_write]
  by_cases hnm : n = m
  · simp [hnm]
  · simpa [hnm] using h

theorem FS.exists?_append_mono {fs : FS} {m : Name} (ex : FS)
    (h : FS.exists? fs m = true) : FS.exists? (fs ++ ex) m = true := by
  rw [FS.exists?_append, h, Bool.true_or]

/-- The cache-file filter only accepts names ending in `n` (from `.json`). -/
theorem isCacheFile_getLast (thr : ℤ) (f : Name) (h : isCacheFile thr f = true) :
    f.getLast? = some 'n' := by
  have hsuf : (cacheSuffix thr) <:+ f := by
    rw [isCacheFile, Bool.and_eq_true] at h
    exact List.isSuffixOf_iff_suffix.mp h.1
  obtain ⟨t, ht⟩ := hsuf
  have hlast : (cacheSuffix thr).getLast? = some 'n' := by
    rw [cacheSuffix]
    rw [List.append_assoc, List.getLast?_append, List.getLast?_append]
    rfl
  rw [← ht, List.getLast?_append, hlast]
  rfl

/-- A cover-image name (`split_{k}.jpg`) never matches the cache filter. -/
theorem isCacheFile_splitImageName (thr : ℤ) (k : ℕ) :
    isCacheFile thr (splitImageName k) = false := by
  by_cases h : isCacheFile thr (splitImageName k) = true
  · have hlast := isCacheFile_getLast thr _ h
    rw [splitImageName, List.getLast?_append, List.getLast?_append] at hlast
    simp at hlast
  · simpa using h

/-- After the chunk loop, every processed segment file exists. -/
theorem chunkLoop_exists (d : ℚ) :
    ∀ (is : List ℕ) (fs : FS) (m : Name),
      FS.exists? fs m = true → FS.exists? (chunkLoop d fs is).1 m = true := by
  intro is
  induction is with
  | nil => intro fs m h; simpa [chunkLoop] using h
  | cons i rest ih =>
    intro fs m h
    by_cases hi : FS.exists? fs (chunkName i) = true
    · simpa [chunkLoop, hi] using ih fs m h
    · have hi2 : FS.exists? fs (chunkName i) = false := by simpa using hi
      simpa [chunkLoop, hi2] using ih _ m (FS.exists?_write_mono _ _ h)

theorem chunkLoop_post (d : ℚ) :
    ∀ (is : List ℕ) (fs : FS) (i : ℕ), i ∈ is →
      FS.exists? (chunkLoop d fs is).1 (chunkName i) = true := by
  intro is
  induction is with
  | nil => intro fs i h; simp at h
  | cons j rest ih =>
    intro fs i h
    by_cases hj : FS.exists? fs (chunkName j) = true
    · rcases List.mem_cons.mp h with h | h
      · subst h
        simpa [chunkLoop, hj] using chunkLoop_exists d rest fs _ hj
      · simpa [chunkLoop, hj] using ih fs i h
    · have hj2 : FS.exists? fs (chunkName j) = false := by simpa using hj
      rcases List.mem_cons.mp h with h | h
      · subst h
        simpa [chunkLoop, hj2] using
          chunkLoop_exists d rest _ _ (FS.exists?_write_self fs _ _)
      · simpa [chunkLoop, hj2] using ih _ i h

/-- A chunk loop over segments that all exist is a no-op with no calls. -/
theorem chunkLoop_noop (d : ℚ) :
    ∀ (is : List ℕ) (fs : FS),
      (∀ i ∈ is, FS.exists? fs (chunkName i) = true) →
      chunkLoop d fs is = (fs, []) := by
  intro is
  induction is with
  | nil => intro fs _; rfl
  | cons i rest ih =>
    intro fs h
    have hi := h i (by simp)
    simp only [chunkLoop, hi, if_true]
    exact ih fs (fun j hj => h j (by simp [hj]))

/-- After a successful detection stage, every processed segment's cache file
exists, and every file that existed before still exists. -/
theorem detectStage_post (src : Source) (thr : ℤ) :
    ∀ (chunks : List Name) (fs fs2 : FS) (calls : List Call),
      detectStage src thr fs chunks = .ok (fs2, calls) →
      (∀ c ∈ chunks, FS.exists? fs2 (cacheName c thr) = true) ∧
      (∀ m, FS.exists? fs m = true → FS.exists? fs2 m = true) := by
  intro chunks
  induction chunks with
  | nil =>
    intro fs fs2 calls h
    simp only [detectStage, Res.ok.injEq, Prod.mk.injEq] at h
    obtain ⟨h1, h2⟩ := h
    subst h1
    exact ⟨by simp, fun m hm => hm⟩
  | cons c rest ih =>
    intro fs fs2 calls h
    by_cases hc : FS.exists? fs (cacheName c thr) = true
    · rw [detectStage, if_pos hc] at h
      obtain ⟨hpost, hmono⟩ := ih fs fs2 calls h
      exact ⟨fun c2 hc2 => by
        rcases List.mem_cons.mp hc2 with h2 | h2
        · subst h2; exact hmono _ hc
        · exact hpost c2 h2,
        hmono⟩
    · have hc2 : FS.exists? fs (cacheName c thr) = false := by simpa using hc
      rw [detectStage, hc2] at h
      simp only [Bool.false_eq_true, if_false] at h
      cases hdet : detect_silence (src.stderrLines c) with
      | err e => simp only [hdet] at h; exact Res.noConfusion h
      | ok silences =>
        simp only [hdet] at h
        cases hrest : detectStage src thr
            (FS.write fs (cacheName c thr) (.json silences)) rest with
        | err e => simp only [hrest] at h; exact Res.noConfusion h
        | ok out =>
          obtain ⟨fs3, calls3⟩ := out
          simp only [hrest, Res.ok.injEq, Prod.mk.injEq] at h
          obtain ⟨hfs, _⟩ := h
          subst hfs
          obtain ⟨hpost, hmono⟩ := ih _ fs3 calls3 hrest
          refine ⟨fun c2 hc2 => ?_, fun m hm =>
            hmono m (FS.exists?_write_mono _ _ hm)⟩
          rcases List.mem_cons.mp hc2 with h2 | h2
          · subst h2
            exact hmono _ (FS.exists?_write_self fs _ _)
          · exact hpost c2 h2

/-- A detection stage over segments whose caches all exist is a no-op with no
calls. -/
theorem detectStage_noop (src : Source) (thr : ℤ) :
    ∀ (chunks : List Name) (fs : FS),
      (∀ c ∈ chunks, FS.exists? fs (cacheName c thr) = true) →
      detectStage src thr fs chunks = .ok (fs, []) := by
  intro chunks
  induction chunks with
  | nil => intro fs _; rfl
  | cons c rest ih =>
    intro fs h
    rw [detectStage, if_pos (h c (by simp))]
    exact ih fs (fun c2 hc2 => h c2 (by simp [hc2]))

/-- The walk's `prev_end` and `split_count` do not depend on the accumulated
splits, and the accumulator is a prefix of the result. -/
theorem walkGo_splits_shift :
    ∀ (ivs : List (ℚ × ℚ)) (p : ℚ) (c : ℕ) (sp0 : List Split),
      walkGo ⟨p, c, sp0⟩ ivs
        = ⟨(walkGo ⟨p, c, []⟩ ivs).prev_end, (walkGo ⟨p, c, []⟩ ivs).split_count,
           sp0 ++ (walkGo ⟨p, c, []⟩ ivs).splits⟩ := by
  intro ivs
  induction ivs with
  | nil => intro p c sp0; simp [walkGo]
  | cons iv rest ih =>
    intro p c sp0
    by_cases hc : iv.1 - p < 10
    · simp only [walkGo, walkStep, if_pos hc]
      exact ih iv.2 (c + 1) sp0
    · simp only [walkGo, walkStep, if_neg hc, List.nil_append]
      rw [ih iv.2 (c + 1) (sp0 ++ [(⟨c + 1, p, iv.1⟩ : Split)]),
        ih iv.2 (c + 1) [(⟨c + 1, p, iv.1⟩ : Split)]]
      simp

/-- The merge branch of the emission loop changes only the loop variables. -/
theorem emitOne_merge (src : Source) (st : EmitSt) (s : ℚ × ℚ)
    (h : s.1 - st.prev_end < 10) :
    emitOne src st s = { st with prev_end := s.2, split_count := st.split_count + 1 } := by
  simp [emitOne, h]

/-- The emit branch advances the loop variables, leaves both output files of
split `split_count + 1` on disk, and only appends split-named files. -/
theorem emitOne_spec (src : Source) (st : EmitSt) (s : ℚ × ℚ)
    (h : ¬ (s.1 - st.prev_end < 10)) :
    (emitOne src st s).prev_end = s.2 ∧
    (emitOne src st s).split_count = st.split_count + 1 ∧
    FS.exists? (emitOne src st s).fs
      (splitAudioName (st.split_count + 1) src.container) = true ∧
    FS.exists? (emitOne src st s).fs (splitImageName (st.split_count + 1)) = true ∧
    ∃ extra, (emitOne src st s).fs = st.fs ++ extra ∧
      ∀ p ∈ extra, (∃ k, p.1 = splitAudioName k src.container) ∨
        ∃ k, p.1 = splitImageName k := by
  by_cases ha : FS.exists? st.fs (splitAudioName (st.split_count + 1) src.container) = true
  · by_cases hi : FS.exists? st.fs (splitImageName (st.split_count + 1)) = true
    · have hEq : emitOne src st s = ⟨st.fs, st.calls, s.2, st.split_count + 1⟩ := by
        simp [emitOne, if_neg h, ha, hi]
      rw [hEq]
      exact ⟨rfl, rfl, ha, hi, [], by simp, by simp⟩
    · have hi2 : FS.exists? st.fs (splitImageName (st.split_count + 1)) = false := by
        simpa using hi
      have hEq : emitOne src st s
          = ⟨FS.write st.fs (splitImageName (st.split_count + 1))
              (.jpg (middleTime st.prev_end s.1)),
             st.calls ++ [.frame (middleTime st.prev_end s.1)],
             s.2, st.split_count + 1⟩ := by
        simp [emitOne, if_neg h, ha, hi2]
      rw [hEq]
      refine ⟨rfl, rfl, FS.exists?_write_mono _ _ ha, FS.exists?_write_self _ _ _,
        [(splitImageName (st.split_count + 1),
          .jpg (middleTime st.prev_end s.1))], FS.write_absent _ _ _ hi2, ?_⟩
      intro p hp
      simp only [List.mem_singleton] at hp
      subst hp
      exact Or.inr ⟨st.split_count + 1, rfl⟩
  · have ha2 : FS.exists? st.fs (splitAudioName (st.split_count + 1) src.container)
        = false := by simpa using ha
    have hw1 := FS.write_absent st.fs (splitAudioName (st.split_count + 1) src.container)
      (.audio st.prev_end (some s.1)) ha2
    by_cases hi : FS.exists?
        (FS.write st.fs (splitAudioName (st.split_count + 1) src.container)
          (.audio st.prev_end (some s.1)))
        (splitImageName (st.split_count + 1)) = true
    · have hEq : emitOne src st s
          = ⟨FS.write st.fs (splitAudioName (st.split_count + 1) src.container)
              (.audio st.prev_end (some s.1)),
             st.calls ++ [.extractAudio st.prev_end (some s.1)],
             s.2, st.split_count + 1⟩ := by
        simp [emitOne, if_neg h, ha2, hi]
      rw [hEq]
      refine ⟨rfl, rfl, FS.exists?_write_self _ _ _, hi,
        [(splitAudioName (st.split_count + 1) src.container,
          .audio st.prev_end (some s.1))], hw1, ?_⟩
      intro p hp
      simp only [List.mem_singleton] at hp
      subst hp
      exact Or.inl ⟨st.split_count + 1, rfl⟩
    · have hi2 : FS.exists?
          (FS.write st.fs (splitAudioName (st.split_count + 1) src.container)
            (.audio st.prev_end (some s.1)))
          (splitImageName (st.split_count + 1)) = false := by simpa using hi
      have hEq : emitOne src st s
          = ⟨FS.write
              (FS.write st.fs (splitAudioName (st.split_count + 1) src.container)
                (.audio st.prev_end (some s.1)))
              (splitImageName (st.split_count + 1))
              (.jpg (middleTime st.prev_end s.1)),
             st.calls ++ [.extractAudio st.prev_end (some s.1)]
               ++ [.frame (middleTime st.prev_end s.1)],
             s.2, st.split_count + 1⟩ := by
        simp [emitOne, if_neg h, ha2, hi2]
      rw [hEq]
      have hw2 := FS.write_absent _ (splitImageName (st.split_count + 1))
        (.jpg (middleTime st.prev_end s.1)) hi2
      refine ⟨rfl, rfl,
        FS.exists?_write_mono _ _ (FS.exists?_write_self _ _ _),
        FS.exists?_write_self _ _ _, ?_⟩
      refine ⟨[(splitAudioName (st.split_count + 1) src.container,
          .audio st.prev_end (some s.1)),
        (splitImageName (st.split_count + 1),
          .jpg (middleTime st.prev_end s.1))], ?_, ?_⟩
      · rw [hw2, hw1, List.append_assoc]
        rfl
      · intro p hp
        rcases List.mem_cons.mp hp with hp | hp
        · subst hp
          exact Or.inl ⟨st.split_count + 1, rfl⟩
        · simp only [List.mem_singleton] at hp
          subst hp
          exact Or.inr ⟨st.split_count + 1, rfl⟩

/-- The emission loop's variables follow the pure walk. -/
theorem emitLoop_fields (src : Source) :
    ∀ (ivs : List (ℚ × ℚ)) (est : EmitSt),
      (emitLoop src est ivs).prev_end
        = (walkGo ⟨est.prev_end, est.split_count, []⟩ ivs).prev_end ∧
      (emitLoop src est ivs).split_count
        = (walkGo ⟨est.prev_end, est.split_count, []⟩ ivs).split_count := by
  intro ivs
  induction ivs with
  | nil => intro est; exact ⟨rfl, rfl⟩
  | cons iv rest ih =>
    intro est
    by_cases hc : iv.1 - est.prev_end < 10
    · simp only [emitLoop, walkGo, walkStep, if_pos hc, emitOne_merge src est iv hc]
      exact ih _
    · obtain ⟨hp, hcnt, _, _, _⟩ := emitOne_spec src est iv hc
      simp only [emitLoop, walkGo, walkStep, if_neg hc, List.nil_append]
      rw [walkGo_splits_shift rest iv.2 (est.split_count + 1)
        [(⟨est.split_count + 1, est.prev_end, iv.1⟩ : Split)]]
      have h2 := ih (emitOne src est iv)
      rw [hp, hcnt] at h2
      exact h2

/-- The emission loop only appends split-named files to the directory. -/
theorem emitLoop_ext (src : Source) :
    ∀ (ivs : List (ℚ × ℚ)) (est : EmitSt),
      ∃ extra, (emitLoop src est ivs).fs = est.fs ++ extra ∧
        ∀ p ∈ extra, (∃ k, p.1 = splitAudioName k src.container) ∨
          ∃ k, p.1 = splitImageName k := by
  intro ivs
  induction ivs with
  | nil => intro est; exact ⟨[], by simp [emitLoop], by simp⟩
  | cons iv rest ih =>
    intro est
    by_cases hc : iv.1 - est.prev_end < 10
    · obtain ⟨extra, he, hn⟩ := ih (emitOne src est iv)
      refine ⟨extra, ?_, hn⟩
      simp only [emitLoop]
      rw [he, emitOne_merge src est iv hc]
    · obtain ⟨_, _, _, _, e1, he1, hn1⟩ := emitOne_spec src est iv hc
      obtain ⟨e2, he2, hn2⟩ := ih (emitOne src est iv)
      refine ⟨e1 ++ e2, ?_, ?_⟩
      · simp only [emitLoop]
        rw [he2, he1, List.append_assoc]
      · intro p hp
        rcases List.mem_append.mp hp with hp | hp
        · exact hn1 p hp
        · exact hn2 p hp

/-- Files present before the emission loop are still present after it. -/
theorem emitLoop_exists_mono (src : Source) (ivs : List (ℚ × ℚ)) (est : EmitSt)
    (m : Name) (h : FS.exists? est.fs m = true) :
    FS.exists? (emitLoop src est ivs).fs m = true := by
  obtain ⟨extra, he, _⟩ := emitLoop_ext src ivs est
  rw [he]
  exact FS.exists?_append_mono extra h

/-- After the emission loop, both output files of every split the walk emits
are on disk. -/
theorem emitLoop_post (src : Source) :
    ∀ (ivs : List (ℚ × ℚ)) (est : EmitSt) (sp : Split),
      sp ∈ (walkGo ⟨est.prev_end, est.split_count, []⟩ ivs).splits →
      FS.exists? (emitLoop src est ivs).fs
        (splitAudioName sp.number src.container) = true ∧
      FS.exists? (emitLoop src est ivs).fs (splitImageName sp.number) = true := by
  intro ivs
  induction ivs with
  | nil => intro est sp hm; simp [walkGo] at hm
  | cons iv rest ih =>
    intro est sp hm
    by_cases hc : iv.1 - est.prev_end < 10
    · simp only [walkGo, walkStep, if_pos hc] at hm
      simp only [emitLoop, emitOne_merge src est iv hc]
      exact ih _ sp (by simpa using hm)
    · obtain ⟨hp, hcnt, hea, hei, _⟩ := emitOne_spec src est iv hc
      simp only [walkGo, walkStep, if_neg hc, List.nil_append] at hm
      rw [walkGo_splits_shift rest iv.2 (est.split_count + 1)
        [⟨est.split_count + 1, est.prev_end, iv.1⟩]] at hm
      simp only [List.mem_append, List.mem_singleton] at hm
      simp only [emitLoop]
      rcases hm with hm | hm
      · subst hm
        exact ⟨emitLoop_exists_mono src rest _ _ hea,
          emitLoop_exists_mono src rest _ _ hei⟩
      · have h2 := ih (emitOne src est iv) sp
        rw [hp, hcnt] at h2
        exact h2 hm

/-- An emission loop whose split files all already exist rewrites nothing and
makes no calls: it only advances the loop variables. -/
theorem emitLoop_noop (src : Source) :
    ∀ (ivs : List (ℚ × ℚ)) (fs : FS) (calls : List Call) (p : ℚ) (c : ℕ),
      (∀ sp ∈ (walkGo ⟨p, c, []⟩ ivs).splits,
        FS.exists? fs (splitAudioName sp.number src.container) = true ∧
        FS.exists? fs (splitImageName sp.number) = true) →
      emitLoop src ⟨fs, calls, p, c⟩ ivs
        = ⟨fs, calls, (walkGo ⟨p, c, []⟩ ivs).prev_end,
           (walkGo ⟨p, c, []⟩ ivs).split_count⟩ := by
  intro ivs
  induction ivs with
  | nil => intro fs calls p c _; rfl
  | cons iv rest ih =>
    intro fs calls p c hall
    by_cases hc : iv.1 - p < 10
    · have hme := emitOne_merge src ⟨fs, calls, p, c⟩ iv hc
      simp only [emitLoop, walkGo, walkStep, if_pos hc, hme]
      exact ih fs calls iv.2 (c + 1) (by
        intro sp hsp
        exact hall sp (by simpa [walkGo, walkStep, if_pos hc] using hsp))
    · have hhead := hall ⟨c + 1, p, iv.1⟩ (by
        simp only [walkGo, walkStep, if_neg hc, List.nil_append]
        rw [walkGo_splits_shift rest iv.2 (c + 1) [⟨c + 1, p, iv.1⟩]]
        simp)
      have hone : emitOne src ⟨fs, calls, p, c⟩ iv = ⟨fs, calls, iv.2, c + 1⟩ := by
        unfold emitOne
        simp only [if_neg hc]
        rw [if_pos hhead.1, if_pos hhead.2]
      simp only [emitLoop, walkGo, walkStep, if_neg hc, hone, List.nil_append]
      rw [walkGo_splits_shift rest iv.2 (c + 1) [⟨c + 1, p, iv.1⟩]]
      exact ih fs calls iv.2 (c + 1) (by
        intro sp hsp
        refine hall sp ?_
        simp only [walkGo, walkStep, if_neg hc, List.nil_append]
        rw [walkGo_splits_shift rest iv.2 (c + 1) [⟨c + 1, p, iv.1⟩]]
        simp [hsp])

/-- The final emission leaves both files of split `split_count + 1` on disk
and only appends split-named files. -/
theorem finalEmit_spec (src : Source) (st : EmitSt) :
    FS.exists? (finalEmit src st).fs
      (splitAudioName (st.split_count + 1) src.container) = true ∧
    FS.exists? (finalEmit src st).fs (splitImageName (st.split_count + 1)) = true ∧
    ∃ extra, (finalEmit src st).fs = st.fs ++ extra ∧
      ∀ p ∈ extra, (∃ k, p.1 = splitAudioName k src.container) ∨
        ∃ k, p.1 = splitImageName k := by
  by_cases ha : FS.exists? st.fs (splitAudioName (st.split_count + 1) src.container) = true
  · by_cases hi : FS.exists? st.fs (splitImageName (st.split_count + 1)) = true
    · have hEq : (finalEmit src st).fs = st.fs := by
        simp [finalEmit, ha, hi]
      rw [hEq]
      exact ⟨ha, hi, [], by simp, by simp⟩
    · have hi2 : FS.exists? st.fs (splitImageName (st.split_count + 1)) = false := by
        simpa using hi
      have hEq : (finalEmit src st).fs
          = FS.write st.fs (splitImageName (st.split_count + 1))
              (.jpg (middleTime st.prev_end src.duration)) := by
        simp [finalEmit, ha, hi2]
      rw [hEq]
      refine ⟨FS.exists?_write_mono _ _ ha, FS.exists?_write_self _ _ _,
        [(splitImageName (st.split_count + 1),
          .jpg (middleTime st.prev_end src.duration))],
        FS.write_absent _ _ _ hi2, ?_⟩
      intro p hp
      simp only [List.mem_singleton] at hp
      subst hp
      exact Or.inr ⟨st.split_count + 1, rfl⟩
  · have ha2 : FS.exists? st.fs (splitAudioName (st.split_count + 1) src.container)
        = false := by simpa using ha
    have hw1 := FS.write_absent st.fs (splitAudioName (st.split_count + 1) src.container)
      (.audio st.prev_end none) ha2
    by_cases hi : FS.exists?
        (FS.write st.fs (splitAudioName (st.split_count + 1) src.container)
          (.audio st.prev_end none))
        (splitImageName (st.split_count + 1)) = true
    · have hEq : (finalEmit src st).fs
          = FS.write st.fs (splitAudioName (st.split_count + 1) src.container)
              (.audio st.prev_end none) := by
        simp [finalEmit, ha2, hi]
      rw [hEq]
      refine ⟨FS.exists?_write_self _ _ _, hi,
        [(splitAudioName (st.split_count + 1) src.container,
          .audio st.prev_end none)], hw1, ?_⟩
      intro p hp
      simp only [List.mem_singleton] at hp
      subst hp
      exact Or.inl ⟨st.split_count + 1, rfl⟩
    · have hi2 : FS.exists?
          (FS.write st.fs (splitAudioName (st.split_count + 1) src.container)
            (.audio st.prev_end none))
          (splitImageName (st.split_count + 1)) = false := by simpa using hi
      have hEq : (finalEmit src st).fs
          = FS.write
              (FS.write st.fs (splitAudioName (st.split_count + 1) src.container)
                (.audio st.prev_end none))
              (splitImageName (st.split_count + 1))
              (.jpg (middleTime st.prev_end src.duration)) := by
        simp [finalEmit, ha2, hi2]
      rw [hEq]
      have hw2 := FS.write_absent _ (splitImageName (st.split_count + 1))
        (.jpg (middleTime st.prev_end src.duration)) hi2
      refine ⟨FS.exists?_write_mono _ _ (FS.exists?_write_self _ _ _),
        FS.exists?_write_self _ _ _,
        [(splitAudioName (st.split_count + 1) src.container, .audio st.prev_end none),
         (splitImageName (st.split_count + 1),
          .jpg (middleTime st.prev_end src.duration))], ?_, ?_⟩
      · rw [hw2, hw1, List.append_assoc]
        rfl
      · intro p hp
        rcases List.mem_cons.mp hp with hp | hp
        · subst hp
          exact Or.inl ⟨st.split_count + 1, rfl⟩
        · simp only [List.mem_singleton] at hp
          subst hp
          exact Or.inr ⟨st.split_count + 1, rfl⟩

/-- A final emission whose two files already exist is the identity. -/
theorem finalEmit_noop (src : Source) (st : EmitSt)
    (ha : FS.exists? st.fs (splitAudioName (st.split_count + 1) src.container) = true)
    (hi : FS.exists? st.fs (splitImageName (st.split_count + 1)) = true) :
    finalEmit src st = st := by
  simp [finalEmit, ha, hi]

/-- A split audio name whose container extension does not end in `n` never
matches the cache filter. -/
theorem isCacheFile_splitAudioName_of_last (thr : ℤ) (k : ℕ) (container : Name)
    (c : Char) (h : container.getLast? = some c) (hne : c ≠ 'n') :
    isCacheFile thr (splitAudioName k container) = false := by
  by_cases hic : isCacheFile thr (splitAudioName k container) = true
  · have hlast := isCacheFile_getLast thr _ hic
    rw [splitAudioName, List.getLast?_append, List.getLast?_append,
      List.getLast?_append, h] at hlast
    simp only [Option.or_some] at hlast
    exact absurd (Option.some.inj hlast) hne
  · simpa using hic

/-- Loading cache files ignores entries appended after them. -/
theorem gatherLoop_append_stable (d : ℚ) (fs extra : FS) :
    ∀ files : List Name, (∀ f ∈ files, f ∈ FS.names fs) →
      gatherLoop (fs ++ extra) d files = gatherLoop fs d files := by
  intro files
  induction files with
  | nil => intro _; rfl
  | cons f rest ih =>
    intro h
    obtain ⟨v, hv⟩ := FS.mem_names_lookup (h f (by simp))
    have hl : FS.lookup (fs ++ extra) f = some v := by
      rw [FS.lookup_append, hv]
    simp only [gatherLoop, loadCache, hv, hl, ih (fun g hg => h g (by simp [hg]))]

/-- Membership in the sorted cache-file list implies membership in the
directory listing. -/
theorem mem_of_mem_sort_filter (thr : ℤ) (fs : FS) (f : Name)
    (h : f ∈ sort_chunks ((FS.names fs).filter (isCacheFile thr))) :
    f ∈ FS.names fs := by
  have hperm := List.perm_insertionSort chunkLe ((FS.names fs).filter (isCacheFile thr))
  have hmem : f ∈ (FS.names fs).filter (isCacheFile thr) := hperm.mem_iff.mp h
  exact (List.mem_filter.mp hmem).1

/-- A successful splitter run only grows the directory, and running the
splitter again over its own output rewrites nothing and makes exactly the one
codec probe. -/
theorem split_stage_second_run (src : Source) (d : ℚ) (thr : ℤ)
    (fs2 fs3 : FS) (c3 : List Call)
    (h : split_original_by_silence src d thr fs2 = .ok (fs3, c3))
    (hc : ∀ k : ℕ, isCacheFile thr (splitAudioName k src.container) = false) :
    (∀ m, FS.exists? fs2 m = true → FS.exists? fs3 m = true) ∧
    split_original_by_silence src d thr fs3 = .ok (fs3, [.probe]) := by
  unfold split_original_by_silence at h
  cases hg : gatherLoop fs2 d (sort_chunks ((FS.names fs2).filter (isCacheFile thr))) with
  | err e => simp only [hg] at h; exact Res.noConfusion h
  | ok all =>
    simp only [hg, Res.ok.injEq, Prod.mk.injEq] at h
    obtain ⟨hfs3, hcalls3⟩ := h
    obtain ⟨e1, he1, hn1⟩ := emitLoop_ext src all ⟨fs2, [], 0, 0⟩
    obtain ⟨haudF, himgF, e2, he2, hn2⟩ :=
      finalEmit_spec src (emitLoop src ⟨fs2, [], 0, 0⟩ all)
    have hfs3eq : fs3 = fs2 ++ (e1 ++ e2) := by
      rw [← hfs3, he2, he1, List.append_assoc]
    have hmono : ∀ m, FS.exists? fs2 m = true → FS.exists? fs3 m = true := by
      intro m hm
      rw [hfs3eq]
      exact FS.exists?_append_mono _ hm
    refine ⟨hmono, ?_⟩
    have hfilter : (FS.names fs3).filter (isCacheFile thr)
        = (FS.names fs2).filter (isCacheFile thr) := by
      rw [hfs3eq]
      have hmap : FS.names (fs2 ++ (e1 ++ e2))
          = FS.names fs2 ++ FS.names (e1 ++ e2) := by
        simp [FS.names]
      rw [hmap, List.filter_append]
      have hnil : (FS.names (e1 ++ e2)).filter (isCacheFile thr) = [] := by
        rw [List.filter_eq_nil_iff]
        intro a ha
        obtain ⟨p, hp, hpa⟩ := List.mem_map.mp ha
        subst hpa
        have hname : (∃ k, p.1 = splitAudioName k src.container) ∨
            ∃ k, p.1 = splitImageName k := by
          rcases List.mem_append.mp hp with hp | hp
          · exact hn1 p hp
          · exact hn2 p hp
        rcases hname with ⟨k, hk⟩ | ⟨k, hk⟩
        · rw [hk, hc k]
          simp
        · rw [hk, isCacheFile_splitImageName thr k]
          simp
      rw [hnil, List.append_nil]
    have hg2 : gatherLoop fs3 d (sort_chunks ((FS.names fs3).filter (isCacheFile thr)))
        = .ok all := by
      rw [hfilter, hfs3eq,
        gatherLoop_append_stable d fs2 (e1 ++ e2) _
          (fun f hf => mem_of_mem_sort_filter thr fs2 f hf)]
      exact hg
    have hfields := emitLoop_fields src all ⟨fs2, [], 0, 0⟩
    have hex : ∀ sp ∈ (walkGo ⟨0, 0, []⟩ all).splits,
        FS.exists? fs3 (splitAudioName sp.number src.container) = true ∧
        FS.exists? fs3 (splitImageName sp.number) = true := by
      intro sp hsp
      have hpost := emitLoop_post src all ⟨fs2, [], 0, 0⟩ sp hsp
      rw [← hfs3, he2]
      exact ⟨FS.exists?_append_mono _ hpost.1, FS.exists?_append_mono _ hpost.2⟩
    have hloop2 := emitLoop_noop src all fs3 [] 0 0 hex
    have haud3 : FS.exists? fs3
        (splitAudioName ((walkGo ⟨0, 0, []⟩ all).split_count + 1) src.container)
          = true := by
      rw [← hfs3, ← hfields.2]
      exact haudF
    have himg3 : FS.exists? fs3
        (splitImageName ((walkGo ⟨0, 0, []⟩ all).split_count + 1)) = true := by
      rw [← hfs3, ← hfields.2]
      exact himgF
    simp only [split_original_by_silence, hg2]
    rw [hloop2]
    rw [finalEmit_noop src
      ⟨fs3, [], (walkGo ⟨0, 0, []⟩ all).prev_end, (walkGo ⟨0, 0, []⟩ all).split_count⟩
      haud3 himg3]

/-- A demonstration source: 100 seconds of `mkv`-contained `aac` audio in
which the engine reports no silence. -/
def srcDemo : Source := ⟨100, "aac".toList, "mkv".toList, fun _ => []⟩

/-- The complete output directory of a run of `process` on `srcDemo` with
chunk duration 2700 and threshold −40: the one segment, its cache, and the
one (final) split with its cover image. -/
def fsDemo : FS :=
  [(chunkName 0, .wav 0 2700),
   (cacheName (chunkName 0) (-40), .json []),
   (splitAudioName 1 "mkv".toList, .audio 0 none),
   (splitImageName 1, .jpg 50)]

/-- A second run over the complete directory `fsDemo` changes nothing but
still invokes the engine twice: the duration probe of the chunker and the
codec probe of the splitter. -/
theorem processDemo_second_run :
    process srcDemo 2700 (-40) fsDemo = .ok (fsDemo, [.probe, .probe]) := by
  have hnum : numChunks 100 2700 = 1 := by
    unfold numChunks
    rw [show (⌈(100 : ℚ) / 2700⌉ : ℤ) = 1 by
      rw [Int.ceil_eq_iff]
      constructor <;> norm_num]
    rfl
  simp only [process, extract_audio_chunks, chunk_files, srcDemo, hnum]
  decide

/-- Counterexample to C6: on a directory already holding every output, a
second run of the pipeline leaves every file byte-identical but still
performs two external-engine calls — the unconditional `ffmpeg.probe` in
`extract_audio_chunks` (line 38) and the one in `get_audio_codec` (line 22,
called at line 131) — so the second run does not perform zero engine calls. -/
theorem c6_counterexample :
    process srcDemo 2700 (-40) fsDemo = .ok (fsDemo, [.probe, .probe]) ∧
    ([Call.probe, Call.probe] : List Call) ≠ [] :=
  ⟨processDemo_second_run, by decide⟩

/-- C6 as amended: a second run of the pipeline over the output of a
successful run leaves the directory byte-identical (so cache files are
unchanged) and performs no extraction, detection, or frame-grab call; it
still performs exactly two probe calls.  The container extension is assumed
not to collide with the cache-file suffix (true of any real container
name such as `mkv` or `matroska`). -/
theorem c6_amended_second_run_only_probes
    (src : Source) (d : ℚ) (thr : ℤ) (fs fs1 : FS) (c1 : List Call)
    (h1 : process src d thr fs = .ok (fs1, c1))
    (hc : ∀ k : ℕ, isCacheFile thr (splitAudioName k src.container) = false) :
    process src d thr fs1 = .ok (fs1, [.probe, .probe]) := by
  simp only [process, extract_audio_chunks] at h1
  cases hd : detectStage src thr
      (chunkLoop d fs (List.range (numChunks src.duration d))).1
      (chunk_files src.duration d) with
  | err e => simp only [hd] at h1; exact Res.noConfusion h1
  | ok out2 =>
    obtain ⟨fs2, c2⟩ := out2
    simp only [hd] at h1
    cases hs3 : split_original_by_silence src d thr fs2 with
    | err e => simp only [hs3] at h1; exact Res.noConfusion h1
    | ok out3 =>
      obtain ⟨fs3, c3⟩ := out3
      simp only [hs3, Res.ok.injEq, Prod.mk.injEq] at h1
      obtain ⟨hfs1, hc1⟩ := h1
      subst hfs1
      obtain ⟨hmono3, hsecond⟩ := split_stage_second_run src d thr fs2 fs3 c3 hs3 hc
      obtain ⟨hcaches2, hmono2⟩ :=
        detectStage_post src thr (chunk_files src.duration d) _ fs2 c2 hd
      have hchunks3 : ∀ i ∈ List.range (numChunks src.duration d),
          FS.exists? fs3 (chunkName i) = true :=
        fun i hi => hmono3 _ (hmono2 _
          (chunkLoop_post d (List.range (numChunks src.duration d)) fs i hi))
      have hcaches3 : ∀ c ∈ chunk_files src.duration d,
          FS.exists? fs3 (cacheName c thr) = true :=
        fun c hcm => hmono3 _ (hcaches2 c hcm)
      have hloop : chunkLoop d fs3 (List.range (numChunks src.duration d)) = (fs3, []) :=
        chunkLoop_noop d _ fs3 hchunks3
      have hstage2 : detectStage src thr fs3 (chunk_files src.duration d) = .ok (fs3, []) :=
        detectStage_noop src thr _ fs3 hcaches3
      simp only [process, extract_audio_chunks, hloop, hstage2, hsecond]
      rfl

/-- Witness for C6's amended theorem on the demonstration directory. -/
theorem c6_witness :
    process srcDemo 2700 (-40) fsDemo = .ok (fsDemo, [.probe, .probe]) :=
  c6_amended_second_run_only_probes srcDemo 2700 (-40) fsDemo fsDemo
    [.probe, .probe] processDemo_second_run
    (fun k => isCacheFile_splitAudioName_of_last (-40) k srcDemo.container 'v'
      (by decide) (by decide))

/-- Witness for C10: a start/end pair parses, and a lone end line fails with
the never-assigned-start error. -/
theorem c10_witness :
    (∃ res, detect_silence [⟨some 1, none⟩, ⟨none, some 3⟩] = .ok res) ∧
    detect_silence [⟨none, some 3⟩] = .err .nameError := by
  refine ⟨c10_totality_iff_start_precedes_end.1 _ ?_,
    c10_totality_iff_start_precedes_end.2 [⟨none, some 3⟩] 0 (by simp) (by simp)
      rfl (fun i hi hlt => by omega)⟩
  intro j hj hje
  refine ⟨0, by simp, ?_, by simp⟩
  cases j with
  | zero =>
    have h0 : (Option.none (α := ℚ)).isSome = true := hje
    simp at h0
  | succ j0 => omega

end SilenceSplit
